import Mathlib

/-!
Verification of the process-mining toolbox core
(`src/dfg_generator.py`, `src/network_process_map_v2.py`,
`src/variant_analysis.py`, `src/log_parser.py`,
`src/dfg_perf_visualizer.py` / `src/dfg_graphviz_visualizer.py`).

The event table is embedded as a list of `Event` records; pandas
`sort_values` is embedded as a stable insertion sort on the same key,
`groupby` over a sorted frame as grouping of consecutive equal keys
(iterated in sorted key order, as pandas does), and `Counter` /
aggregated columns as explicit count / sum functions.  Timestamps are
integer seconds; SLA flags are naturals (0/1); means are rationals.
-/
/-- One row of the event log: ticket id, activity label, timestamp
(seconds), queue id, SLA flag (`sla_met` column, 0/1). -/
structure Event where
  ticket_id : String
  activity : String
  timestamp : Int
  queue_id : String
  sla_met : Nat
  deriving DecidableEq, Repr

/-- Insert `a` into `l` before the first element `b` with `le a b`. -/
def insertLe (le : α → α → Bool) (a : α) : List α → List α
  | [] => [a]
  | b :: t => if le a b then a :: b :: t else b :: insertLe le a t

/-- Insertion sort by the boolean relation `le` (embeds `sort_values`). -/
def sortOn (le : α → α → Bool) (l : List α) : List α :=
  l.foldr (insertLe le) []

/-- Lexicographic comparison of character lists (Python/pandas compare
strings by code points). -/
def charListLt : List Char → List Char → Bool
  | [], [] => false
  | [], _ :: _ => true
  | _ :: _, [] => false
  | a :: s, b :: t =>
    if a < b then true else if b < a then false else charListLt s t

/-- Strict lexicographic order on strings. -/
def strLt (a b : String) : Bool :=
  charListLt a.data b.data

/-- Sort key of `df.sort_values(by=['ticket_id', 'timestamp'])`:
lexicographic on (ticket_id, timestamp). -/
def eventLe (a b : Event) : Bool :=
  if a.ticket_id = b.ticket_id then decide (a.timestamp ≤ b.timestamp)
  else strLt a.ticket_id b.ticket_id

/-- Group maximal runs of adjacent elements related by `eq`
(embeds `groupby` applied to a frame already sorted on the key). -/
def groupRuns (eq : α → α → Bool) : List α → List (List α)
  | [] => []
  | [a] => [[a]]
  | a :: b :: t =>
    match groupRuns eq (b :: t) with
    | [] => [[a]]
    | g :: gs => if eq a b then (a :: g) :: gs else [a] :: g :: gs

/-- Per-case groups of
`df.sort_values(['ticket_id','timestamp']).groupby('ticket_id')`:
the per-ticket groups, each sorted by timestamp. -/
def caseGroups (events : List Event) : List (List Event) :=
  groupRuns (fun a b => a.ticket_id == b.ticket_id) (sortOn eventLe events)

/-- One edge record appended by the loop body of `generate_dfg`. -/
structure EdgeRec where
  queue_id : String
  source : String
  target : String
  duration_sec : Int
  sla_met : Nat
  deriving DecidableEq, Repr

/-- Body of the per-ticket loop of `generate_dfg` (lines 16-33): for each
adjacent pair of events of the group, one edge record whose `queue_id` is
the group's first row's queue, whose duration is the timestamp difference,
and whose SLA flag is the flag of the *target* event — or constant 1 for
every event when the log has no `sla_met` column (`hasSla = false`). -/
def caseEdges (hasSla : Bool) (g : List Event) : List EdgeRec :=
  match g with
  | [] => []
  | e0 :: _ =>
    (g.zip g.tail).map fun ab =>
      { queue_id := e0.queue_id
        source := ab.1.activity
        target := ab.2.activity
        duration_sec := ab.2.timestamp - ab.1.timestamp
        sla_met := if hasSla then ab.2.sla_met else 1 }

/-- The full `edges` list built by `generate_dfg` before aggregation. -/
def generate_dfg_edges (hasSla : Bool) (events : List Event) : List EdgeRec :=
  ((caseGroups events).map (caseEdges hasSla)).flatten

/-! ## Queue transition model (`network_process_map_v2.py`) -/

/-- Inner state of the dedup loop of `_compute_queue_transitions`
(lines 47-52), after at least one queue has been kept: skip falsy
(empty-string) queue ids, skip a queue equal to the last kept one,
otherwise keep it. -/
def dedupAux (prev : String) : List String → List String
  | [] => []
  | q :: rest =>
    if q = "" then dedupAux prev rest
    else if q = prev then dedupAux prev rest
    else q :: dedupAux q rest

/-- The dedup loop of `_compute_queue_transitions`: drop falsy queue ids
and collapse consecutive repeats. -/
def dedupQueues : List String → List String
  | [] => []
  | q :: rest => if q = "" then dedupQueues rest else q :: dedupAux q rest

/-- Per-ticket de-duplicated queue sequence
(`per_ticket_sequences[ticket_id]`) of one case group. -/
def caseQueueSeq (g : List Event) : List String :=
  dedupQueues (g.map Event.queue_id)

/-- Number of adjacent pairs equal to `p` in a queue sequence: the
contribution of one case to `transitions[p]`. -/
def countAdj (seq : List String) (p : String × String) : Nat :=
  (seq.zip seq.tail).count p

/-- Global counter `global_transitions[p]` of `_compute_queue_transitions`,
computed over the whole log before any filtering. -/
def global_transitions (events : List Event) (p : String × String) : Nat :=
  ((caseGroups events).map fun g => countAdj (caseQueueSeq g) p).sum

/-- The filtered `transitions` Counter of `generate_network_process_map_v2`
(lines 89-93): keep a global count only when both endpoints are selected,
the endpoints differ, and the count reaches the threshold; a value 0 means
the pair is absent from the Counter. -/
def filtered_transitions (events : List Event) (selected : List String)
    (thr : Nat) (p : String × String) : Nat :=
  let c := global_transitions events p
  if p.1 ∈ selected ∧ p.2 ∈ selected ∧ p.1 ≠ p.2 ∧ thr ≤ c then c else 0

/-- Contribution of one case to `single_queue_counts[q]` (lines 96-99):
1 exactly when its de-duplicated queue sequence is `[q]` with `q`
selected. -/
def caseSelfLoopContribution (selected : List String) (q : String)
    (g : List Event) : Nat :=
  if caseQueueSeq g = [q] ∧ q ∈ selected then 1 else 0

/-- Counter `single_queue_counts[q]` before the threshold filter. -/
def single_queue_counts_raw (events : List Event) (selected : List String)
    (q : String) : Nat :=
  ((caseGroups events).map (caseSelfLoopContribution selected q)).sum

/-- Counter `single_queue_counts[q]` after the threshold filter
(line 101). -/
def single_queue_counts (events : List Event) (selected : List String)
    (thr : Nat) (q : String) : Nat :=
  let c := single_queue_counts_raw events selected q
  if thr ≤ c then c else 0

def c2log : List Event :=
  [⟨"T1", "open", 0, "Q1", 1⟩, ⟨"T1", "work", 1, "Q3", 1⟩,
   ⟨"T1", "close", 2, "Q2", 1⟩]

def c3log : List Event :=
  [⟨"T1", "open", 0, "Q1", 1⟩, ⟨"T1", "work", 1, "Q1", 1⟩,
   ⟨"T1", "close", 2, "Q1", 1⟩]

def c10g : List Event :=
  [⟨"T1", "open", 0, "Q1", 1⟩, ⟨"T1", "work", 1, "", 1⟩,
   ⟨"T1", "close", 2, "Q1", 1⟩]

def c10h : List Event := [⟨"T2", "open", 0, "", 1⟩]

/-! ## Step durations of `load_event_log` (`log_parser.py`) -/

/-- The per-case `duration_sec` column of `load_event_log` before
`fillna`: `groupby('ticket_id')['timestamp'].shift(-1) - timestamp`, one
entry per event, `none` (NaN) for the last event of the case. -/
def stepDurationsOpt : List Event → List (Option Int)
  | [] => []
  | [_] => [none]
  | a :: b :: t => some (b.timestamp - a.timestamp) :: stepDurationsOpt (b :: t)

/-- The per-case `duration_sec` column after `fillna(0)` (line 16). -/
def load_event_log_duration_col (g : List Event) : List Int :=
  (stepDurationsOpt g).map fun o => o.getD 0

/-- The whole `duration_sec` column of `load_event_log` in sorted row
order. -/
def load_event_log_durations (events : List Event) : List Int :=
  ((caseGroups events).map load_event_log_duration_col).flatten

def c5log : List Event :=
  [⟨"T1", "open", 0, "Q1", 1⟩, ⟨"T1", "close", 5, "Q1", 1⟩]

/-! ## DFG aggregation (`dfg_generator.py`, lines 35-44) -/

/-- The grouping key of `dfg_df.groupby(['queue_id','source','target'])`. -/
def edgeKey (e : EdgeRec) : String × String × String :=
  (e.queue_id, e.source, e.target)

/-- Lexicographic order on grouping keys (pandas iterates groups in
sorted key order). -/
def keyLe (a b : String × String × String) : Bool :=
  if a.1 = b.1 then
    if a.2.1 = b.2.1 then strLt a.2.2 b.2.2 || decide (a.2.2 = b.2.2)
    else strLt a.2.1 b.2.1
  else strLt a.1 b.1

/-- The distinct group keys of the aggregation, in iteration order. -/
def dfg_keys (edges : List EdgeRec) : List (String × String × String) :=
  (sortOn keyLe (edges.map edgeKey)).dedup

/-- One row of the `dfg_summary` frame returned by `generate_dfg`. -/
structure DfgRow where
  queue_id : String
  source : String
  target : String
  count : Nat
  avg_duration_sec : ℚ
  sla_compliance_pct : ℚ
  deriving DecidableEq, Repr

/-- Arithmetic mean of a list of rationals (pandas `mean` on a group). -/
def listMean (l : List ℚ) : ℚ :=
  l.sum / l.length

/-- Aggregation of `generate_dfg`: build the per-case edge records, then
aggregate per `(queue_id, source, target)` group: `count`, mean duration,
mean SLA flag. -/
def generate_dfg (hasSla : Bool) (events : List Event) : List DfgRow :=
  let edges := generate_dfg_edges hasSla events
  (dfg_keys edges).map fun k =>
    let es := edges.filter fun e => decide (edgeKey e = k)
    { queue_id := k.1
      source := k.2.1
      target := k.2.2
      count := es.length
      avg_duration_sec := listMean (es.map fun e => (e.duration_sec : ℚ))
      sla_compliance_pct := listMean (es.map fun e => (e.sla_met : ℚ)) }

def c6log : List Event :=
  [⟨"T1", "open", 0, "Q1", 1⟩, ⟨"T1", "close", 5, "Q1", 0⟩]

def c6row : DfgRow := ⟨"Q1", "open", "close", 1, 5, 0⟩

def c7log : List Event :=
  [⟨"T2", "open", 0, "Q1", 0⟩, ⟨"T2", "close", 7, "Q1", 0⟩]

def c7row : DfgRow := ⟨"Q1", "open", "close", 1, 7, 1⟩

/-! ## Duration formatting (`dfg_perf_visualizer.py`, `dfg_graphviz_visualizer.py`) -/

/-- Python `int()` applied to a (rational) number: truncation toward
zero. -/
def pyInt (s : ℚ) : Int :=
  if 0 ≤ s then ⌊s⌋ else -⌊-s⌋

/-- Lines 9-18 of `format_duration`: split `total_sec` into
hours/minutes/seconds with Python `//` (floor division) and `%`
(non-negative remainder for positive divisor), then render. -/
def formatTotal (total_sec : Int) : String :=
  let hours := Int.fdiv total_sec 3600
  let minutes := Int.fdiv (Int.emod total_sec 3600) 60
  let secs := Int.emod total_sec 60
  if hours > 0 then
    toString hours ++ " hr " ++ toString minutes ++ " min " ++
      toString secs ++ " sec"
  else if minutes > 0 then
    toString minutes ++ " min " ++ toString secs ++ " sec"
  else
    toString secs ++ " sec"

/-- Function `format_duration(seconds)`: truncate, then render. -/
def format_duration (seconds : ℚ) : String :=
  formatTotal (pyInt seconds)

/-- The output format described by the spec contract, on the truncated
number of seconds: `"H hr M min S sec"`, dropping the hour part when
zero and both hour and minute parts when zero. -/
def format_duration_spec (n : ℕ) : String :=
  if 0 < n / 3600 then
    toString (n / 3600) ++ " hr " ++ toString (n % 3600 / 60) ++ " min " ++
      toString (n % 60) ++ " sec"
  else if 0 < n % 3600 / 60 then
    toString (n % 3600 / 60) ++ " min " ++ toString (n % 60) ++ " sec"
  else
    toString (n % 60) ++ " sec"

def c9log : List Event :=
  [⟨"T1", "open", 0, "QA", 1⟩, ⟨"T1", "work", 1, "QB", 1⟩,
   ⟨"T1", "close", 2, "QC", 1⟩]

def c9edge : EdgeRec := ⟨"QA", "work", "close", 1, 1⟩

/-! ## Variant analysis (`variant_analysis.py`) -/

/-- Python `" → ".join(activities)`. -/
def joinArrow (l : List String) : String :=
  String.intercalate " → " l

/-- Lexicographic order on string pairs (pandas `groupby` iterates its
groups in sorted key order). -/
def pairLe (a b : String × String) : Bool :=
  if a.1 = b.1 then strLt a.2 b.2 || decide (a.2 = b.2)
  else strLt a.1 b.1

/-- Position of the first occurrence of `a` in a list (length of the list
when absent). -/
def posOf {α} [DecidableEq α] (a : α) : List α → Nat
  | [] => 0
  | b :: t => if b = a then 0 else posOf a t + 1

/-- The distinct `(queue_id, ticket_id)` group keys of
`df.groupby(['queue_id', 'ticket_id'])`, in iteration (sorted) order. -/
def variantCaseKeys (events : List Event) : List (String × String) :=
  (sortOn pairLe
    ((sortOn eventLe events).map fun e => (e.queue_id, e.ticket_id))).dedup

/-- The `variants` rows built by the loop of `discover_variants`
(lines 14-16): per `(queue_id, ticket_id)` group, the joined activity
sequence of its rows in sorted order. -/
def variantCases (events : List Event) : List (String × String × String) :=
  (variantCaseKeys events).map fun qt =>
    (qt.1, qt.2, joinArrow (((sortOn eventLe events).filter fun e =>
      decide (e.queue_id = qt.1 ∧ e.ticket_id = qt.2)).map Event.activity))

/-- One row of the `variant_summary` frame. -/
structure VRow where
  queue_id : String
  sequence : String
  ticket_count : Nat
  variant_id : Nat
  deriving DecidableEq, Repr

/-- The distinct `(queue_id, sequence)` group keys of
`variant_df.groupby(['queue_id', 'sequence'])`, in iteration (sorted)
order. -/
def variantKeys (events : List Event) : List (String × String) :=
  (sortOn pairLe ((variantCases events).map fun c => (c.1, c.2.2))).dedup

/-- Grouping of `discover_variants`: group the per-case rows by
`(queue_id, sequence)`, count tickets per group, and assign `variant_id`
as `groupby('queue_id').cumcount() + 1` in row order — the 1-based
position of the row within the rows sharing its queue. -/
def discover_variants (events : List Event) : List VRow :=
  let cases := variantCases events
  let keys := variantKeys events
  keys.map fun k =>
    { queue_id := k.1
      sequence := k.2
      ticket_count :=
        (cases.filter fun c => decide (c.1 = k.1 ∧ c.2.2 = k.2)).length
      variant_id := posOf k (keys.filter fun x => decide (x.1 = k.1)) + 1 }

def c4log : List Event :=
  [⟨"T1", "a", 0, "Q1", 1⟩, ⟨"T1", "b", 1, "Q1", 1⟩,
   ⟨"T2", "a", 0, "Q1", 1⟩, ⟨"T2", "c", 1, "Q1", 1⟩,
   ⟨"T3", "a", 0, "Q1", 1⟩, ⟨"T3", "c", 1, "Q1", 1⟩,
   ⟨"T4", "b", 0, "Q1", 1⟩, ⟨"T4", "a", 1, "Q1", 1⟩]

/-! ## Theorems -/

/-- C1: For every case with n events, the transition aggregation
(`generate_dfg`) emits exactly n-1 edge records for that case (so 0 for a
single-event case), and the whole edge list is exactly the concatenation
of these per-case contributions. -/
theorem generate_dfg_steps_per_case (hasSla : Bool) (g : List Event) :
    (caseEdges hasSla g).length = g.length - 1 ∧
    ∀ events : List Event,
      generate_dfg_edges hasSla events =
        ((caseGroups events).map (caseEdges hasSla)).flatten := by
  refine ⟨?_, fun _ => rfl⟩
  cases g with
  | nil => rfl
  | cons e t => simp [caseEdges]

/-- The kept-queue runs of `dedupAux` never repeat the previous queue:
adjacent entries of `prev :: dedupAux prev l` are pairwise distinct. -/
theorem dedupAux_chain (l : List String) :
    ∀ prev, List.Chain' (fun a b => a ≠ b) (prev :: dedupAux prev l) := by
  induction l with
  | nil => intro prev; simp [dedupAux]
  | cons q rest ih =>
    intro prev
    by_cases hq : q = ""
    · simpa [dedupAux, hq] using ih prev
    · by_cases hp : q = prev
      · simpa [dedupAux, hq, hp] using ih prev
      · have h := ih q
        simp only [dedupAux, hq, hp, if_false, if_neg hq, if_neg hp]
        exact List.Chain'.cons (fun he => hp he.symm) h

/-- De-duplicated queue sequences have no equal adjacent entries. -/
theorem dedupQueues_chain (l : List String) :
    List.Chain' (fun a b => a ≠ b) (dedupQueues l) := by
  induction l with
  | nil => simp [dedupQueues]
  | cons q rest ih =>
    by_cases hq : q = ""
    · simpa [dedupQueues, hq] using ih
    · simpa [dedupQueues, hq] using dedupAux_chain rest q

/-- All-empty queue lists de-duplicate to the empty sequence. -/
theorem dedupQueues_all_empty (l : List String) (h : ∀ x ∈ l, x = "") :
    dedupQueues l = [] := by
  induction l with
  | nil => rfl
  | cons q rest ih =>
    have hq : q = "" := h q (by simp)
    simpa [dedupQueues, hq] using ih fun x hx => h x (by simp [hx])

theorem sum_map_eq_length {α} (l : List α) (f : α → Nat)
    (h : ∀ a ∈ l, f a = 1) : (l.map f).sum = l.length := by
  induction l with
  | nil => rfl
  | cons a t ih =>
    simp [h a (by simp), ih fun x hx => h x (by simp [hx]), Nat.add_comm]

theorem sum_map_eq_zero {α} (l : List α) (f : α → Nat)
    (h : ∀ a ∈ l, f a = 0) : (l.map f).sum = 0 := by
  induction l with
  | nil => rfl
  | cons a t ih =>
    simp [h a (by simp), ih fun x hx => h x (by simp [hx])]

/-- C2: queue transitions are computed globally over the entire log before
any filtering: when every case's de-duplicated queue sequence is
`[A, C, B]`, the global pass records one `A→C` and one `C→B` per case, and
with `selected_queues = [A, B]` the filtered output contains no `A→B`
edge — no transition is fabricated between non-adjacent queues. -/
theorem global_then_filter_no_fabrication (A B C : String)
    (events : List Event) (thr : Nat)
    (h : ∀ g ∈ caseGroups events, caseQueueSeq g = [A, C, B]) :
    filtered_transitions events [A, B] thr (A, B) = 0 ∧
    global_transitions events (A, C) = (caseGroups events).length ∧
    global_transitions events (C, B) = (caseGroups events).length := by
  by_cases hnil : caseGroups events = []
  · refine ⟨?_, by simp [global_transitions, hnil],
      by simp [global_transitions, hnil]⟩
    simp [filtered_transitions, global_transitions, hnil]
  · obtain ⟨g0, gs, hgs⟩ := List.exists_cons_of_ne_nil hnil
    have h0 : caseQueueSeq g0 = [A, C, B] := h g0 (by rw [hgs]; simp)
    have hchain := dedupQueues_chain (g0.map Event.queue_id)
    rw [show dedupQueues (g0.map Event.queue_id) = caseQueueSeq g0 from rfl,
      h0] at hchain
    have hAC : A ≠ C := (List.chain'_cons.mp hchain).1
    have hCB : C ≠ B := (List.chain'_cons.mp (List.chain'_cons.mp hchain).2).1
    have hcnt : ∀ g ∈ caseGroups events,
        countAdj (caseQueueSeq g) (A, B) = 0 ∧
        countAdj (caseQueueSeq g) (A, C) = 1 ∧
        countAdj (caseQueueSeq g) (C, B) = 1 := by
      intro g hg
      have hseq : caseQueueSeq g = [A, C, B] := h g hg
      refine ⟨?_, ?_, ?_⟩ <;>
        simp [countAdj, hseq, List.count_cons, Prod.ext_iff, hAC, hCB,
          Ne.symm hAC, Ne.symm hCB]
    have hAB0 : global_transitions events (A, B) = 0 := by
      rw [global_transitions]
      exact sum_map_eq_zero _ _ fun g hg => (hcnt g hg).1
    refine ⟨by simp [filtered_transitions, hAB0], ?_, ?_⟩
    · rw [global_transitions]
      exact sum_map_eq_length _ _ fun g hg => (hcnt g hg).2.1
    · rw [global_transitions]
      exact sum_map_eq_length _ _ fun g hg => (hcnt g hg).2.2

theorem global_then_filter_no_fabrication_witness :
    (∀ g ∈ caseGroups c2log, caseQueueSeq g = ["Q1", "Q3", "Q2"]) ∧
    (filtered_transitions c2log ["Q1", "Q2"] 1 ("Q1", "Q2") = 0 ∧
     global_transitions c2log ("Q1", "Q3") = (caseGroups c2log).length ∧
     global_transitions c2log ("Q3", "Q2") = (caseGroups c2log).length) :=
  ⟨by decide, global_then_filter_no_fabrication "Q1" "Q2" "Q3" c2log 1 (by decide)⟩

/-- C3: a case whose de-duplicated queue sequence is exactly `[q1]` with
`q1` selected contributes exactly one increment to
`single_queue_counts[q1]`, nothing to any other queue's counter, and zero
cross-queue transitions — regardless of how many raw events the case has;
`single_queue_counts_raw` is precisely the sum of these per-case
contributions. -/
theorem single_queue_case_contribution (selected : List String)
    (q1 : String) (g : List Event)
    (hseq : caseQueueSeq g = [q1]) (hsel : q1 ∈ selected) :
    caseSelfLoopContribution selected q1 g = 1 ∧
    (∀ p, countAdj (caseQueueSeq g) p = 0) ∧
    (∀ q2, q2 ≠ q1 → caseSelfLoopContribution selected q2 g = 0) ∧
    ∀ events, single_queue_counts_raw events selected q1 =
      ((caseGroups events).map (caseSelfLoopContribution selected q1)).sum := by
  refine ⟨?_, ?_, ?_, fun _ => rfl⟩
  · simp [caseSelfLoopContribution, hseq, hsel]
  · intro p; simp [countAdj, hseq]
  · intro q2 hne
    simp [caseSelfLoopContribution, hseq, Ne.symm hne]

theorem single_queue_case_contribution_witness :
    (caseQueueSeq c3log = ["Q1"] ∧ "Q1" ∈ ["Q1", "Q2"]) ∧
    (caseSelfLoopContribution ["Q1", "Q2"] "Q1" c3log = 1 ∧
     (∀ p, countAdj (caseQueueSeq c3log) p = 0) ∧
     (∀ q2, q2 ≠ "Q1" → caseSelfLoopContribution ["Q1", "Q2"] q2 c3log = 0) ∧
     ∀ events, single_queue_counts_raw events ["Q1", "Q2"] "Q1" =
       ((caseGroups events).map
         (caseSelfLoopContribution ["Q1", "Q2"] "Q1")).sum) :=
  ⟨⟨by decide, by decide⟩,
   single_queue_case_contribution ["Q1", "Q2"] "Q1" c3log (by decide) (by decide)⟩

/-- C10: the de-duplication pass skips events with a falsy (empty-string)
queue id: a case visiting `[q, "", q]` has sequence `[q]` and is
classified single-queue, while a case whose events all have empty queue
ids has an empty sequence and contributes neither a transition nor a
self-loop. -/
theorem queue_seq_skips_falsy (q : String) (g h2 : List Event)
    (hq : q ≠ "")
    (hg : g.map Event.queue_id = [q, "", q])
    (hh : ∀ e ∈ h2, e.queue_id = "") :
    caseQueueSeq g = [q] ∧
    caseQueueSeq h2 = [] ∧
    (∀ p, countAdj (caseQueueSeq h2) p = 0) ∧
    (∀ selected q2, caseSelfLoopContribution selected q2 h2 = 0) ∧
    (∀ selected, caseSelfLoopContribution selected q g =
       if q ∈ selected then 1 else 0) := by
  have hgseq : caseQueueSeq g = [q] := by
    rw [caseQueueSeq, hg]
    simp [dedupQueues, dedupAux, hq]
  have hhseq : caseQueueSeq h2 = [] := by
    rw [caseQueueSeq]
    exact dedupQueues_all_empty _ fun x hx => by
      obtain ⟨e, he, rfl⟩ := List.mem_map.mp hx
      exact hh e he
  refine ⟨hgseq, hhseq, ?_, ?_, ?_⟩
  · intro p; simp [countAdj, hhseq]
  · intro selected q2; simp [caseSelfLoopContribution, hhseq]
  · intro selected
    by_cases hs : q ∈ selected <;> simp [caseSelfLoopContribution, hgseq, hs]

theorem queue_seq_skips_falsy_witness :
    (("Q1" : String) ≠ "" ∧ c10g.map Event.queue_id = ["Q1", "", "Q1"] ∧
     (∀ e ∈ c10h, e.queue_id = "")) ∧
    (caseQueueSeq c10g = ["Q1"] ∧
     caseQueueSeq c10h = [] ∧
     (∀ p, countAdj (caseQueueSeq c10h) p = 0) ∧
     (∀ selected q2, caseSelfLoopContribution selected q2 c10h = 0) ∧
     (∀ selected, caseSelfLoopContribution selected "Q1" c10g =
        if "Q1" ∈ selected then 1 else 0)) :=
  ⟨⟨by decide, by decide, by decide⟩,
   queue_seq_skips_falsy "Q1" c10g c10h (by decide) (by decide) (by decide)⟩

theorem getLast?_cons_of_ne_nil {α} (a : α) (l : List α) (h : l ≠ []) :
    (a :: l).getLast? = l.getLast? := by
  cases l with
  | nil => exact absurd rfl h
  | cons b t => rfl

/-- C5, counterexample: `load_event_log` *does* synthesize a duration for
the last event of a case — `fillna(0)` gives the 2-event case `c5log` a
`duration_sec` column `[5, 0]` of length 2 (not n-1 = 1), and its final
event carries the synthesized value 0. -/
theorem load_event_log_fills_last_duration :
    load_event_log_durations c5log = [5, 0] ∧
    (load_event_log_durations c5log).length ≠ c5log.length - 1 ∧
    (load_event_log_durations c5log).getLast? = some 0 := by decide

/-- C5, amended: the *optional* step durations (before `fillna`) are
defined for exactly the n-1 adjacent pairs and the last event's entry is
`none`; after `fillna(0)` every one of the n rows carries a value and the
final row carries the synthesized 0.  In `generate_dfg`, durations exist
only on the n-1 per-case edge records. -/
theorem step_durations_only_adjacent (g : List Event) (h : g ≠ []) :
    ((stepDurationsOpt g).countP fun o => o.isSome) = g.length - 1 ∧
    (stepDurationsOpt g).length = g.length ∧
    (stepDurationsOpt g).getLast? = some none ∧
    (load_event_log_duration_col g).length = g.length ∧
    (load_event_log_duration_col g).getLast? = some 0 ∧
    ∀ hasSla, (caseEdges hasSla g).length = g.length - 1 := by
  induction g with
  | nil => exact absurd rfl h
  | cons a t ih =>
    cases t with
    | nil =>
      simp [stepDurationsOpt, load_event_log_duration_col, caseEdges]
    | cons b t2 =>
      obtain ⟨hcount, hlen, hlast, hflen, hflast, _⟩ := ih (by simp)
      have hne : stepDurationsOpt (b :: t2) ≠ [] := by
        intro he
        simp [he] at hlen
      have hfne : load_event_log_duration_col (b :: t2) ≠ [] := by
        intro he
        simp [he] at hflen
      refine ⟨?_, ?_, ?_, ?_, ?_, ?_⟩
      · simp only [stepDurationsOpt, List.countP_cons]
        simp only [hcount]
        simp [List.length_cons]
      · simp [stepDurationsOpt, hlen]
      · rw [show stepDurationsOpt (a :: b :: t2) =
          some (b.timestamp - a.timestamp) :: stepDurationsOpt (b :: t2) from rfl,
          getLast?_cons_of_ne_nil _ _ hne, hlast]
      · simp [load_event_log_duration_col, stepDurationsOpt, hlen]
      · rw [show load_event_log_duration_col (a :: b :: t2) =
          (b.timestamp - a.timestamp) :: load_event_log_duration_col (b :: t2)
          from rfl, getLast?_cons_of_ne_nil _ _ hfne, hflast]
      · intro hasSla; simp [caseEdges]

theorem step_durations_only_adjacent_witness :
    c5log ≠ [] ∧
    (((stepDurationsOpt c5log).countP fun o => o.isSome) = c5log.length - 1 ∧
     (stepDurationsOpt c5log).length = c5log.length ∧
     (stepDurationsOpt c5log).getLast? = some none ∧
     (load_event_log_duration_col c5log).length = c5log.length ∧
     (load_event_log_duration_col c5log).getLast? = some 0 ∧
     ∀ hasSla, (caseEdges hasSla c5log).length = c5log.length - 1) :=
  ⟨by decide, step_durations_only_adjacent c5log (by decide)⟩

theorem zip_tail_snd_getElem? (g : List Event) (i : ℕ) :
    ((g.zip g.tail)[i]?).map Prod.snd = g[i+1]? := by
  induction g generalizing i with
  | nil => simp
  | cons a t ih =>
    cases t with
    | nil => simp
    | cons b t2 =>
      cases i with
      | zero => simp
      | succ j =>
        have := ih j
        simpa using this

/-- C6: the compliance flag of every edge record is the `sla_met` value of
the *target* event (index i+1) of the pair — likewise its `target`
activity — and the aggregated `sla_compliance_pct` of a summary row is
the arithmetic mean of the flags of its contributing edge records. -/
theorem edge_compliance_semantics (g : List Event) (i : ℕ) (hasSla : Bool)
    (events : List Event) (r : DfgRow)
    (hr : r ∈ generate_dfg hasSla events) :
    ((caseEdges true g)[i]?).map EdgeRec.sla_met =
      (g[i+1]?).map Event.sla_met ∧
    ((caseEdges true g)[i]?).map EdgeRec.target =
      (g[i+1]?).map Event.activity ∧
    r.sla_compliance_pct =
      listMean (((generate_dfg_edges hasSla events).filter
        fun e => decide (edgeKey e = (r.queue_id, r.source, r.target))).map
        fun e => (e.sla_met : ℚ)) := by
  have hz := zip_tail_snd_getElem? g i
  refine ⟨?_, ?_, ?_⟩
  · cases g with
    | nil => simp [caseEdges]
    | cons e0 t =>
      rw [show caseEdges true (e0 :: t) =
        ((e0 :: t).zip t).map fun ab =>
          ({ queue_id := e0.queue_id, source := ab.1.activity,
             target := ab.2.activity,
             duration_sec := ab.2.timestamp - ab.1.timestamp,
             sla_met := ab.2.sla_met } : EdgeRec) from by
          simp [caseEdges]]
      rw [List.getElem?_map, Option.map_map]
      rw [show (e0 :: t).tail = t from rfl] at hz
      rw [← hz, Option.map_map]
      rfl
  · cases g with
    | nil => simp [caseEdges]
    | cons e0 t =>
      rw [show caseEdges true (e0 :: t) =
        ((e0 :: t).zip t).map fun ab =>
          ({ queue_id := e0.queue_id, source := ab.1.activity,
             target := ab.2.activity,
             duration_sec := ab.2.timestamp - ab.1.timestamp,
             sla_met := ab.2.sla_met } : EdgeRec) from by
          simp [caseEdges]]
      rw [List.getElem?_map, Option.map_map]
      rw [show (e0 :: t).tail = t from rfl] at hz
      rw [← hz, Option.map_map]
      rfl
  · simp only [generate_dfg, List.mem_map] at hr
    obtain ⟨k, hk, rfl⟩ := hr
    rfl

theorem edge_compliance_semantics_witness :
    c6row ∈ generate_dfg true c6log ∧
    (((caseEdges true c6log)[0]?).map EdgeRec.sla_met =
       (c6log[0+1]?).map Event.sla_met ∧
     ((caseEdges true c6log)[0]?).map EdgeRec.target =
       (c6log[0+1]?).map Event.activity ∧
     c6row.sla_compliance_pct =
       listMean (((generate_dfg_edges true c6log).filter
         fun e => decide (edgeKey e =
           (c6row.queue_id, c6row.source, c6row.target))).map
         fun e => (e.sla_met : ℚ))) := by
  have heq : generate_dfg true c6log = [c6row] := by with_unfolding_all rfl
  have hmem : c6row ∈ generate_dfg true c6log := by
    rw [heq]; exact List.mem_singleton_self _
  exact ⟨hmem, edge_compliance_semantics c6log 0 true c6log c6row hmem⟩

theorem mem_insertLe {α} (le : α → α → Bool) (a x : α) (l : List α) :
    x ∈ insertLe le a l ↔ x = a ∨ x ∈ l := by
  induction l with
  | nil => simp [insertLe]
  | cons b t ih =>
    cases hle : le a b with
    | true => simp [insertLe, hle]
    | false =>
      simp only [insertLe, hle, if_false, Bool.false_eq_true, List.mem_cons, ih]
      tauto

theorem mem_sortOn {α} (le : α → α → Bool) (x : α) (l : List α) :
    x ∈ sortOn le l ↔ x ∈ l := by
  induction l with
  | nil => simp [sortOn]
  | cons a t ih =>
    rw [show sortOn le (a :: t) = insertLe le a (sortOn le t) from rfl,
      mem_insertLe, ih]
    simp

theorem sla_met_of_no_column (events : List Event) (e : EdgeRec)
    (he : e ∈ generate_dfg_edges false events) : e.sla_met = 1 := by
  rw [generate_dfg_edges, List.mem_flatten] at he
  obtain ⟨l, hl, hel⟩ := he
  rw [List.mem_map] at hl
  obtain ⟨g, _, rfl⟩ := hl
  cases g with
  | nil => simp [caseEdges] at hel
  | cons e0 t =>
    rw [show caseEdges false (e0 :: t) = ((e0 :: t).zip t).map fun ab =>
        ({ queue_id := e0.queue_id, source := ab.1.activity,
           target := ab.2.activity,
           duration_sec := ab.2.timestamp - ab.1.timestamp,
           sla_met := 1 } : EdgeRec) from by simp [caseEdges],
      List.mem_map] at hel
    obtain ⟨ab, _, rfl⟩ := hel
    rfl

theorem rat_sum_of_ones (l : List ℚ) (h : ∀ x ∈ l, x = 1) :
    l.sum = l.length := by
  induction l with
  | nil => simp
  | cons a t ih =>
    have ha : a = 1 := h a (by simp)
    rw [List.sum_cons, ha, ih fun x hx => h x (by simp [hx]),
      List.length_cons]
    push_cast
    ring

/-- C7: when the log has no `sla_met` column, `generate_dfg` treats every
event as compliant (flag 1), so every summary row has
`sla_compliance_pct = 1`. -/
theorem missing_sla_all_compliant (events : List Event) (r : DfgRow)
    (hr : r ∈ generate_dfg false events) :
    r.sla_compliance_pct = 1 := by
  simp only [generate_dfg, List.mem_map] at hr
  obtain ⟨k, hk, rfl⟩ := hr
  show listMean (((generate_dfg_edges false events).filter
    fun e => decide (edgeKey e = k)).map fun e => (e.sla_met : ℚ)) = 1
  have hkmem : k ∈ (generate_dfg_edges false events).map edgeKey := by
    have := List.dedup_subset (l := sortOn keyLe
      ((generate_dfg_edges false events).map edgeKey)) hk
    exact (mem_sortOn _ _ _).mp this
  obtain ⟨e0, he0, hke⟩ := List.mem_map.mp hkmem
  have he0f : e0 ∈ (generate_dfg_edges false events).filter
      fun e => decide (edgeKey e = k) := by
    rw [List.mem_filter]
    exact ⟨he0, by simp [hke]⟩
  have hlen : ((generate_dfg_edges false events).filter
      fun e => decide (edgeKey e = k)).length ≠ 0 := by
    intro h0
    rw [List.length_eq_zero] at h0
    simp [h0] at he0f
  have hall : ∀ x ∈ ((generate_dfg_edges false events).filter
      fun e => decide (edgeKey e = k)).map fun e => (e.sla_met : ℚ), x = 1 := by
    intro x hx
    obtain ⟨e, he, rfl⟩ := List.mem_map.mp hx
    have := sla_met_of_no_column events e (List.mem_filter.mp he).1
    rw [this]
    norm_num
  rw [listMean, rat_sum_of_ones _ hall, List.length_map]
  exact div_self (by exact_mod_cast hlen)

theorem missing_sla_all_compliant_witness :
    c7row ∈ generate_dfg false c7log ∧ c7row.sla_compliance_pct = 1 := by
  have heq : generate_dfg false c7log = [c7row] := by with_unfolding_all rfl
  have hmem : c7row ∈ generate_dfg false c7log := by
    rw [heq]; exact List.mem_singleton_self _
  exact ⟨hmem, missing_sla_all_compliant c7log c7row hmem⟩

theorem toString_intCast_nat (k : ℕ) : toString ((k : ℕ) : ℤ) = toString k :=
  rfl

theorem formatTotal_eq_spec (n : ℕ) :
    formatTotal (n : ℤ) = format_duration_spec n := by
  have hnn : (0 : ℤ) ≤ (n : ℤ) := Int.natCast_nonneg n
  have hmn : (0 : ℤ) ≤ ((n % 3600 : ℕ) : ℤ) := Int.natCast_nonneg _
  have h1 : Int.fdiv (n : ℤ) 3600 = ((n / 3600 : ℕ) : ℤ) := by
    rw [Int.fdiv_eq_div hnn (by norm_num)]
    exact_mod_cast rfl
  have h2 : Int.emod (n : ℤ) 3600 = ((n % 3600 : ℕ) : ℤ) := by
    exact_mod_cast rfl
  have h3 : Int.fdiv ((n % 3600 : ℕ) : ℤ) 60 = ((n % 3600 / 60 : ℕ) : ℤ) := by
    rw [Int.fdiv_eq_div hmn (by norm_num)]
    exact_mod_cast rfl
  have h4 : Int.emod (n : ℤ) 60 = ((n % 60 : ℕ) : ℤ) := by
    exact_mod_cast rfl
  simp only [formatTotal, format_duration_spec, h1, h2, h3, h4,
    gt_iff_lt, Int.natCast_pos, toString_intCast_nat]

/-- C8: for every non-negative number of seconds `s`, `format_duration`
truncates `s` to an integer and renders `"H hr M min S sec"` when the
hour part is positive, `"M min S sec"` when the hour part is zero but the
minute part is positive, and `"S sec"` otherwise; in particular
`format_duration 0 = "0 sec"`, `format_duration 3661 = "1 hr 1 min 1 sec"`
and `format_duration 125 = "2 min 5 sec"`. -/
theorem format_duration_contract (s : ℚ) (hs : 0 ≤ s) :
    format_duration s = format_duration_spec (⌊s⌋.toNat) ∧
    format_duration 0 = "0 sec" ∧
    format_duration 3661 = "1 hr 1 min 1 sec" ∧
    format_duration 125 = "2 min 5 sec" := by
  refine ⟨?_, ?_, ?_, ?_⟩
  · rw [format_duration, pyInt, if_pos hs]
    conv_lhs => rw [show ⌊s⌋ = ((⌊s⌋.toNat : ℕ) : ℤ) from
      (Int.toNat_of_nonneg (Int.floor_nonneg.mpr hs)).symm]
    rw [formatTotal_eq_spec]
  · with_unfolding_all rfl
  · with_unfolding_all rfl
  · with_unfolding_all rfl

theorem format_duration_contract_witness :
    (0 : ℚ) ≤ 251 / 2 ∧
    (format_duration (251 / 2) = format_duration_spec (⌊(251 / 2 : ℚ)⌋.toNat) ∧
     format_duration 0 = "0 sec" ∧
     format_duration 3661 = "1 hr 1 min 1 sec" ∧
     format_duration 125 = "2 min 5 sec") :=
  ⟨by norm_num, format_duration_contract (251 / 2) (by norm_num)⟩

/-- C9: every edge record of a case carries the `queue_id` of the case's
first event (`group['queue_id'].iloc[0]` after the sort), so all edges of
a multi-queue case share one `queue_id`; and the case's edges are among
the edges emitted by `generate_dfg`. -/
theorem edges_inherit_first_event_queue (hasSla : Bool)
    (events : List Event) (g : List Event) (hg : g ∈ caseGroups events)
    (e : EdgeRec) (he : e ∈ caseEdges hasSla g) :
    some e.queue_id = g.head?.map Event.queue_id ∧
    (∀ e2 ∈ caseEdges hasSla g, e2.queue_id = e.queue_id) ∧
    e ∈ generate_dfg_edges hasSla events := by
  have hq : ∀ e2 ∈ caseEdges hasSla g,
      some e2.queue_id = g.head?.map Event.queue_id := by
    intro e2 he2
    cases g with
    | nil => simp [caseEdges] at he2
    | cons e0 t =>
      rw [caseEdges, List.mem_map] at he2
      obtain ⟨ab, _, rfl⟩ := he2
      rfl
  refine ⟨hq e he, ?_, ?_⟩
  · intro e2 he2
    have h1 := hq e2 he2
    have h2 := hq e he
    rw [← h2] at h1
    exact Option.some.inj h1
  · rw [generate_dfg_edges, List.mem_flatten]
    exact ⟨caseEdges hasSla g, List.mem_map_of_mem _ hg, he⟩

theorem edges_inherit_first_event_queue_witness :
    ((sortOn eventLe c9log) ∈ caseGroups c9log ∧
     c9edge ∈ caseEdges true (sortOn eventLe c9log)) ∧
    (some c9edge.queue_id = (sortOn eventLe c9log).head?.map Event.queue_id ∧
     (∀ e2 ∈ caseEdges true (sortOn eventLe c9log),
        e2.queue_id = c9edge.queue_id) ∧
     c9edge ∈ generate_dfg_edges true c9log) :=
  ⟨⟨by decide, by decide⟩,
   edges_inherit_first_event_queue true c9log (sortOn eventLe c9log)
     (by decide) c9edge (by decide)⟩

theorem map_posOf_nodup {α} [DecidableEq α] (l : List α) (h : l.Nodup) :
    l.map (fun x => posOf x l + 1) = List.range' 1 l.length := by
  induction l with
  | nil => rfl
  | cons a t ih =>
    rw [List.nodup_cons] at h
    have hhead : posOf a (a :: t) = 0 := by simp [posOf]
    have htail : t.map (fun x => posOf x (a :: t) + 1) =
        (t.map fun x => posOf x t + 1).map (fun y => y + 1) := by
      rw [List.map_map]
      refine List.map_congr_left fun x hx => ?_
      have hxa : ¬a = x := fun hax => h.1 (hax ▸ hx)
      simp [posOf, hxa]
    rw [List.map_cons, hhead, htail, ih h.2]
    rw [show List.range' 1 (a :: t).length = 1 :: List.range' 2 t.length
      from rfl]
    rw [show (2 : ℕ) = 1 + 1 from rfl, ← List.map_add_range']
    simp [Nat.add_comm]

/-- C4: on a queue with cases `T1 : a→b`, `T2 : a→c`, `T3 : a→c`,
`T4 : b→a`, the two cases with identical ordered activity lists (T2, T3)
share one variant row with `ticket_count = 2`, the order-reversed case T4
is a distinct variant, and `variant_id` is a dense 1-based rank within
each queue group in the group's iteration order (the count-2 variant gets
id 2 — not re-sorted by frequency); in general the variant ids of any
queue in any log are exactly `1, 2, …, k` in output order. -/
theorem discover_variants_semantics :
    discover_variants c4log =
      [⟨"Q1", "a → b", 1, 1⟩, ⟨"Q1", "a → c", 2, 2⟩, ⟨"Q1", "b → a", 1, 3⟩] ∧
    ∀ (events : List Event) (q : String),
      ((discover_variants events).filter fun r =>
          decide (r.queue_id = q)).map VRow.variant_id =
        List.range' 1 (((discover_variants events).filter fun r =>
          decide (r.queue_id = q)).length) := by
  constructor
  · decide
  · intro events q
    rw [discover_variants]
    have hfm : ((variantKeys events).map fun k =>
        ({ queue_id := k.1, sequence := k.2,
           ticket_count := ((variantCases events).filter fun c =>
             decide (c.1 = k.1 ∧ c.2.2 = k.2)).length,
           variant_id := posOf k ((variantKeys events).filter fun x =>
             decide (x.1 = k.1)) + 1 } : VRow)).filter
          (fun r => decide (r.queue_id = q)) =
        (((variantKeys events)).filter fun k => decide (k.1 = q)).map fun k =>
        ({ queue_id := k.1, sequence := k.2,
           ticket_count := ((variantCases events).filter fun c =>
             decide (c.1 = k.1 ∧ c.2.2 = k.2)).length,
           variant_id := posOf k ((variantKeys events).filter fun x =>
             decide (x.1 = k.1)) + 1 } : VRow) := by
      rw [List.filter_map]
      rfl
    rw [hfm, List.map_map, List.length_map]
    have hcongr : (((variantKeys events)).filter fun k =>
        decide (k.1 = q)).map (VRow.variant_id ∘ fun k =>
        ({ queue_id := k.1, sequence := k.2,
           ticket_count := ((variantCases events).filter fun c =>
             decide (c.1 = k.1 ∧ c.2.2 = k.2)).length,
           variant_id := posOf k ((variantKeys events).filter fun x =>
             decide (x.1 = k.1)) + 1 } : VRow)) =
        (((variantKeys events)).filter fun k => decide (k.1 = q)).map
          fun k => posOf k ((variantKeys events).filter fun x =>
            decide (x.1 = q)) + 1 := by
      refine List.map_congr_left fun k hk => ?_
      have hk1 : k.1 = q := by
        have := (List.mem_filter.mp hk).2
        simpa using this
      simp only [Function.comp]
      rw [hk1]
    rw [hcongr]
    exact map_posOf_nodup _ ((List.nodup_dedup _).filter _)
